import Mathlib

/-!
Verification of `ror_wikidata_claim_overlap.py`: a shallow embedding of the
script's pure core (query construction, offset pagination, result
normalization, dict merge, CSV generation, and the driver's control flow),
with theorems checking the specification's claims against it.

Conventions of the embedding:
* Python dicts are modelled as insertion-ordered association lists
  (`List (String × α)`); `dictSet` mirrors Python assignment `d[k] = v`
  (an existing key keeps its position, a new key is appended) and
  `dictUpdate` mirrors `d.update(other)`.
* Fallible Python code (statements that can raise) returns `Except String`;
  `Except.error` stands for a raised exception, the string for its message.
* The network and the filesystem are abstracted into an `Env` record of
  outcomes; the driver `run_main` mirrors `main`'s control flow over it.
-/

namespace RorWikidata

/-! ## Query builder (`generate_sparql_query`, lines 47–55) -/

/-- The body of the `for claim_id, claim_name in claims.items()` loop:
threads the pair (select_clause, where_clause) through the spec entries. -/
def queryLoop : List (String × String) → String × String → String × String
  | [], acc => acc
  | c :: rest, acc =>
      queryLoop rest
        (acc.1 ++ " ?" ++ c.2,
         acc.2 ++ "\n  OPTIONAL \x7b ?item wdt:" ++ c.1 ++ " ?" ++ c.2 ++ " \x7d")

/-- `generate_sparql_query(claims)`: builds the SELECT and WHERE clauses by
appending one variable and one OPTIONAL clause per claim, then joins them. -/
def generate_sparql_query (claims : List (String × String)) : String :=
  let init := ("SELECT ?item ?rorID", "WHERE \x7b\n  ?item wdt:P6782 ?rorID .")
  let acc := queryLoop claims init
  acc.1 ++ "\n" ++ (acc.2 ++ "\n\x7d")

/-- Spec-side reading: the variables listed after `?item ?rorID`,
one `?<claim_name>` per spec entry, in order. -/
def selectVars : List (String × String) → String
  | [] => ""
  | c :: rest => " ?" ++ c.2 ++ selectVars rest

/-- Spec-side reading: the OPTIONAL clauses of the WHERE body, exactly one
per spec entry (binding `?item wdt:<claim_id>` to `?<claim_name>`), in order. -/
def optionalClauses : List (String × String) → String
  | [] => ""
  | c :: rest =>
      "\n  OPTIONAL \x7b ?item wdt:" ++ c.1 ++ " ?" ++ c.2 ++ " \x7d"
        ++ optionalClauses rest

/-! ## Pagination (`execute_sparql_query` line 59, `main` line 123) -/

/-- `f"{query} LIMIT {limit} OFFSET {offset}"` (line 59). -/
def full_query (query : String) (limit offset : Int) : String :=
  query ++ " LIMIT " ++ toString limit ++ " OFFSET " ++ toString offset

/-- Number of elements of Python's `range(start, stop, step)` for `step ≠ 0`:
`max(0, ceil((stop-start)/step))`, written with Nat ceiling division. -/
def pyRangeLen (start stop step : Int) : Nat :=
  if 0 < step then
    if start < stop then ((stop - start).toNat + (step.toNat - 1)) / step.toNat else 0
  else
    if stop < start then ((start - stop).toNat + ((-step).toNat - 1)) / (-step).toNat else 0

/-- Python `range(start, stop, step)`: `none` models the `ValueError` raised
when `step = 0`; otherwise the k-th element is `start + k*step`. -/
def pythonRange (start stop step : Int) : Option (List Int) :=
  if step = 0 then none
  else some ((List.range (pyRangeLen start stop step)).map fun k : Nat => start + (k : Int) * step)

/-- `offsets = range(args.offset, args.offset + args.limit * 20, args.limit)`
(line 123). -/
def main_offsets (offset limit : Int) : Option (List Int) :=
  pythonRange offset (offset + limit * 20) limit

/-! ## Python dicts as insertion-ordered association lists -/

/-- `d[k]` / `d.get(k)`: the value stored at key `k`, if any. -/
def dictGet {α : Type} (d : List (String × α)) (k : String) : Option α :=
  (d.find? fun p => p.1 == k).map (·.2)

/-- `d[k] = v`: replace in place when the key exists (Python dicts keep the
original insertion position), append otherwise. -/
def dictSet {α : Type} (d : List (String × α)) (k : String) (v : α) :
    List (String × α) :=
  if d.any (fun p => p.1 == k) then
    d.map fun p => if p.1 == k then (k, v) else p
  else d ++ [(k, v)]

/-- `d.update(other)`: set each of `other`'s entries in order. -/
def dictUpdate {α : Type} (d other : List (String × α)) : List (String × α) :=
  other.foldl (fun acc p => dictSet acc p.1 p.2) d

/-! ## Result normalizer (`process_wikidata_results`, lines 78–88) -/

/-- One raw SPARQL binding: variable name ↦ its binding object, reduced to the
object's optional `"value"` field (`none` models an object with no `value`). -/
abbrev Binding : Type := List (String × Option String)

/-- `result.get(k)`: `none` when the variable is absent from the binding,
`some v` when present with `"value"` content `v`. -/
def bindingVar (b : Binding) (k : String) : Option (Option String) :=
  (b.find? fun p => p.1 == k).map (·.2)

/-- `result.get(claim_name, {}).get("value")` (line 85). -/
def getValue (b : Binding) (k : String) : Option String :=
  match bindingVar b k with
  | some v => v
  | none => none

/-- `result["rorID"]["value"]` succeeds exactly when this is `some`. -/
def rorOf (b : Binding) : Option String :=
  match bindingVar b "rorID" with
  | some (some s) => some s
  | _ => none

/-- `result["item"]["value"]` succeeds exactly when this is `some`. -/
def itemOf (b : Binding) : Option String :=
  match bindingVar b "item" with
  | some (some s) => some s
  | _ => none

/-- Both subscript chains of the normalizer succeed on this binding. -/
def wellFormedB (b : Binding) : Bool :=
  (rorOf b).isSome && (itemOf b).isSome

/-- Python's `chars.split('/')` for the one-character separator `'/'`:
groups of characters between slashes, always at least one group. -/
def splitSlash : List Char → List (List Char)
  | [] => [[]]
  | c :: rest =>
      if c = '/' then [] :: splitSlash rest
      else
        match splitSlash rest with
        | [] => [[c]]
        | g :: gs => (c :: g) :: gs

/-- `s.split("/")[-1]` (line 82): the last group of the split. -/
def lastComponent (s : String) : String :=
  String.mk ((splitSlash s.data).getLastD [])

/-- Spec-side reading of line 82: "the substring of the URI value after its
last `/` character" (the whole string when it has no `/`). -/
def suffixAfterLastSlash : List Char → List Char
  | [] => []
  | c :: rest =>
      if '/' ∈ rest then suffixAfterLastSlash rest
      else if c = '/' then rest
      else c :: suffixAfterLastSlash rest

/-- One normalized record, abstracting the single Python dict
`{"wikidata_id": ..., claim_name: ..., ...}` with the secondary identifier
held apart from the per-claim optional values. The abstraction is faithful
exactly when no claim is named `"wikidata_id"`: otherwise the dict-literal
`**` expansion overwrites the secondary identifier with that claim's value
(see `mkRecordDict`, which builds the dict as the source writes it, and the
C7 counterexample/amended theorem proving both the divergence and the
agreement under that side condition). -/
structure Record where
  wikidata_id : String
  claimValues : List (String × Option String)
deriving Repr, DecidableEq

/-- `values[claim_name]` on a record's claim dict: `none` models a `KeyError`,
`some v` the stored optional value. -/
def claimValue (r : Record) (name : String) : Option (Option String) :=
  (r.claimValues.find? fun p => p.1 == name).map (·.2)

/-- The record the normalizer stores for one well-formed binding
(lines 83–87), in the abstract `Record` form. This drops the `**`-overwrite
collision of the dict literal: for a claim named `"wikidata_id"` the Python
record loses the URI suffix while this form keeps it. `mkRecordDict` below is
the collision-faithful construction; the two are proven to agree when no
claim bears that name, and to diverge otherwise (C7). -/
def mkRecord (b : Binding) (claims : List (String × String)) : Record :=
  { wikidata_id := lastComponent ((itemOf b).getD "")
    claimValues := claims.map fun c => (c.2, getValue b c.2) }

/-- The record dict exactly as line 83–87 builds it:
`{"wikidata_id": wikidata_id, **{claim_name: ... for claim_name in claims.values()}}`.
The display inserts the `"wikidata_id"` entry first, then merges the
comprehension's entries in order, each overwriting an existing key — so a
claim named `"wikidata_id"` replaces the secondary identifier. -/
def mkRecordDict (b : Binding) (claims : List (String × String)) :
    List (String × Option String) :=
  dictUpdate [("wikidata_id", some (lastComponent ((itemOf b).getD "")))]
    (claims.map fun c => (c.2, getValue b c.2))

/-- The `for result in results` loop of the normalizer: inserts one record per
binding into the accumulated dict, raising (`error`) on a binding whose
`rorID` or `item` subscript chain fails. -/
def processLoop (claims : List (String × String)) :
    List (String × Record) → List Binding → Except String (List (String × Record))
  | acc, [] => .ok acc
  | acc, result :: rest =>
      match rorOf result with
      | some ror_id =>
          match itemOf result with
          | some _ => processLoop claims (dictSet acc ror_id (mkRecord result claims)) rest
          | none => .error "KeyError"
      | none => .error "KeyError"

/-- `process_wikidata_results(results, claims)` (lines 78–88). -/
def process_wikidata_results (results : List Binding)
    (claims : List (String × String)) : Except String (List (String × Record)) :=
  processLoop claims [] results

/-! ## CSV emitter (`generate_csv_files`, lines 91–102) -/

/-- The row-writing loop for one claim's file (lines 98–101): a row is written
only when the stored claim value is truthy (present and non-empty); a record
whose claim dict lacks the name raises `KeyError`. -/
def csvRowLoop (claim_name : String) :
    List (List String) → List (String × Record) → Except String (List (List String))
  | rows, [] => .ok rows
  | rows, kv :: rest =>
      match claimValue kv.2 claim_name with
      | none => .error "KeyError"
      | some none => csvRowLoop claim_name rows rest
      | some (some s) =>
          if s = "" then csvRowLoop claim_name rows rest
          else csvRowLoop claim_name (rows ++ [[kv.1, kv.2.wikidata_id, s]]) rest

/-- The rows of one claim's CSV file: the header then the row loop. -/
def generate_csv_file (data : List (String × Record)) (claim_name : String) :
    Except String (List (List String)) :=
  csvRowLoop claim_name [["ROR ID", "Wikidata ID", claim_name]] data

/-- The `for claim_id, claim_name in claims.items()` loop of
`generate_csv_files`: one `(filename, rows)` pair per claim. -/
def csvFileLoop (data : List (String × Record)) :
    List (String × List (List String)) → List (String × String) →
    Except String (List (String × List (List String)))
  | files, [] => .ok files
  | files, c :: rest =>
      match generate_csv_file data c.2 with
      | .ok file => csvFileLoop data (files ++ [(c.2 ++ "_mapping.csv", file)]) rest
      | .error e => .error e

/-- `generate_csv_files(data, output_directory, claims)`: the emitted files,
as (filename, rows) pairs in claim order. -/
def generate_csv_files (data : List (String × Record))
    (claims : List (String × String)) :
    Except String (List (String × List (List String))) :=
  csvFileLoop data [] claims

/-! ## Driver (`parse_json_claims`, `worker`, `main`; lines 34–135) -/

/-- `parse_json_claims` (lines 34–44): both handlers log and re-raise, so the
outcome of `open` + `json.load` passes through unchanged. -/
def parse_json_claims (readResult : Except String (List (String × String))) :
    Except String (List (String × String)) :=
  match readResult with
  | .ok claims => .ok claims
  | .error e => .error e

/-- `worker` (lines 105–112): any exception from the fetch or the transform is
caught and the page becomes the empty dict. -/
def worker (claims : List (String × String))
    (response : Except String (List Binding)) : List (String × Record) :=
  match response with
  | .error _ => []
  | .ok results =>
      match process_wikidata_results results claims with
      | .ok d => d
      | .error _ => []

/-- The world `main` runs against: the outcome of reading and parsing the
input file, and each page request's outcome as a function of its offset. -/
structure Env where
  claims_file : Except String (List (String × String))
  page_response : Int → Except String (List Binding)

/-- What a run of `main` did: the offsets actually dispatched to workers, the
CSV files written, and the process exit code. -/
structure RunResult where
  requests : List Int
  files : List (String × List (List String))
  exit_code : Nat
deriving Repr, DecidableEq

/-- `main` (lines 115–135): the top-level `try` catches every exception, so
every branch exits with code 0. A raised `range` (`limit = 0`) or a raised
`parse_json_claims` dispatches no request and writes no file. -/
def run_main (env : Env) (limit offset : Int) : RunResult :=
  match parse_json_claims env.claims_file with
  | .error _ => { requests := [], files := [], exit_code := 0 }
  | .ok claims =>
      match main_offsets offset limit with
      | none => { requests := [], files := [], exit_code := 0 }
      | some offs =>
          let results := offs.map fun o => worker claims (env.page_response o)
          let all_data := results.foldl dictUpdate []
          match generate_csv_files all_data claims with
          | .ok files => { requests := offs, files := files, exit_code := 0 }
          | .error _ => { requests := offs, files := [], exit_code := 0 }

/-! ## Lemmas: query builder -/

theorem queryLoop_eq (claims : List (String × String)) :
    ∀ s w : String, queryLoop claims (s, w)
      = (s ++ selectVars claims, w ++ optionalClauses claims) := by
  induction claims with
  | nil => intro s w; simp [queryLoop, selectVars, optionalClauses]
  | cons c rest ih =>
      intro s w
      simp only [queryLoop, selectVars, optionalClauses, ih, String.append_assoc]

/-- **C1.** The generated query is the fixed SELECT head followed by one
variable per spec entry, a newline, and a WHERE block whose body is the fixed
ROR-ID triple followed by exactly one OPTIONAL clause per spec entry; for the
empty spec the query has no OPTIONAL clause and CSV generation emits no file. -/
theorem generate_sparql_query_structure (claims : List (String × String))
    (data : List (String × Record)) :
    generate_sparql_query claims
      = "SELECT ?item ?rorID" ++ selectVars claims ++ "\n"
          ++ ("WHERE \x7b\n  ?item wdt:P6782 ?rorID ." ++ optionalClauses claims
              ++ "\n\x7d")
    ∧ generate_sparql_query []
        = "SELECT ?item ?rorID\nWHERE \x7b\n  ?item wdt:P6782 ?rorID .\n\x7d"
    ∧ generate_csv_files data [] = .ok [] := by
  refine ⟨?_, rfl, rfl⟩
  simp [generate_sparql_query, queryLoop_eq, String.append_assoc]

/-! ## Lemmas: pagination -/

theorem ceil_div_self_mul_twenty (n : Nat) (hn : 0 < n) :
    (20 * n + (n - 1)) / n = 20 := by
  have h20 : 20 * n + (n - 1) = n * 20 + (n - 1) := by ring
  rw [h20, Nat.mul_add_div hn, Nat.div_eq_of_lt (by omega)]

theorem main_offsets_eq (offset limit : Int) (h : limit ≠ 0) :
    main_offsets offset limit
      = some ((List.range 20).map fun k : Nat => offset + (k : Int) * limit) := by
  unfold main_offsets pythonRange
  rw [if_neg h]
  congr 1
  unfold pyRangeLen
  rcases lt_or_gt_of_ne h with hneg | hpos
  · rw [if_neg (by omega), if_pos (by nlinarith)]
    have h1 : (offset - (offset + limit * 20)).toNat = 20 * (-limit).toNat := by omega
    rw [h1, ceil_div_self_mul_twenty _ (by omega)]
  · rw [if_pos hpos, if_pos (by nlinarith)]
    have h1 : (offset + limit * 20 - offset).toNat = 20 * limit.toNat := by omega
    rw [h1, ceil_div_self_mul_twenty _ (by omega)]

/-- **C2 (amended: nonzero limit).** For every starting offset and nonzero
page-size limit the driver dispatches exactly 20 page requests, at offsets
`offset + k*limit` for `k = 0..19`, independently of every page's response,
and each request appends `LIMIT {limit} OFFSET {offset}` to the base query.
(For `limit = 0` the `range` call raises, see the counterexample.) -/
theorem main_dispatches_twenty_pages (offset limit : Int) (h : limit ≠ 0) :
    ∃ L, main_offsets offset limit = some L
      ∧ L.length = 20
      ∧ (∀ k : Nat, k < 20 → L[k]? = some (offset + (k : Int) * limit))
      ∧ (∀ env : Env, ∀ claims, env.claims_file = .ok claims →
          (run_main env limit offset).requests = L)
      ∧ (∀ q : String, ∀ o : Int,
          full_query q limit o
            = q ++ " LIMIT " ++ toString limit ++ " OFFSET " ++ toString o) := by
  refine ⟨_, main_offsets_eq offset limit h, ?_, ?_, ?_, fun q o => rfl⟩
  · rw [List.length_map, List.length_range]
  · intro k hk
    rw [List.getElem?_map, List.getElem?_range hk]
    rfl
  · intro env claims hclaims
    simp only [run_main, hclaims, parse_json_claims, main_offsets_eq offset limit h]
    split <;> rfl

/-- **C2 counterexample.** At `limit = 0` (any offset), constructing the
offsets `range` raises `ValueError`, so no request is dispatched at all —
refuting "exactly 20 requests for every starting offset and page-size limit". -/
theorem main_offsets_zero_limit :
    main_offsets 0 0 = none
      ∧ run_main { claims_file := .ok [], page_response := fun _ => .ok [] } 0 0
          = { requests := [], files := [], exit_code := 0 } := by
  constructor <;> rfl

/-- **C2 witness** at `offset = 5`, `limit = 3`. -/
theorem main_dispatches_twenty_pages_witness :
    (3 : Int) ≠ 0
      ∧ ∃ L, main_offsets 5 3 = some L
          ∧ L.length = 20
          ∧ (∀ k : Nat, k < 20 → L[k]? = some (5 + (k : Int) * 3))
          ∧ (∀ env : Env, ∀ claims, env.claims_file = .ok claims →
              (run_main env 3 5).requests = L)
          ∧ (∀ q : String, ∀ o : Int,
              full_query q 3 o
                = q ++ " LIMIT " ++ toString (3 : Int) ++ " OFFSET " ++ toString o) :=
  ⟨by decide, main_dispatches_twenty_pages 5 3 (by decide)⟩

/-! ## Lemmas: the dict model -/

theorem dictGet_nil {α : Type} (k : String) : dictGet ([] : List (String × α)) k = none :=
  rfl

theorem dictGet_cons {α : Type} (p : String × α) (d : List (String × α)) (k : String) :
    dictGet (p :: d) k = if p.1 = k then some p.2 else dictGet d k := by
  unfold dictGet
  rw [List.find?_cons]
  cases hb : p.1 == k with
  | true =>
      have hp : p.1 = k := by simpa using hb
      simp [hp]
  | false =>
      have hp : ¬ p.1 = k := by simpa using hb
      simp [hp]

theorem dictGet_append {α : Type} (d₁ d₂ : List (String × α)) (k : String) :
    dictGet (d₁ ++ d₂) k
      = match dictGet d₁ k with
        | some v => some v
        | none => dictGet d₂ k := by
  induction d₁ with
  | nil => simp [dictGet_nil]
  | cons p d ih =>
      rw [List.cons_append, dictGet_cons, dictGet_cons]
      by_cases hp : p.1 = k
      · simp [hp]
      · simp [hp, ih]

theorem dictGet_eq_none_of_not_mem {α : Type} (d : List (String × α)) (k : String)
    (h : k ∉ d.map Prod.fst) : dictGet d k = none := by
  induction d with
  | nil => rfl
  | cons p d ih =>
      rw [dictGet_cons]
      simp only [List.map_cons, List.mem_cons] at h
      push_neg at h
      rw [if_neg (fun hc => h.1 hc.symm)]
      exact ih h.2

theorem dictGet_set_map {α : Type} (d : List (String × α)) (k : String) (v : α)
    (k' : String) :
    dictGet (d.map fun p => if p.1 == k then (k, v) else p) k'
      = if k' = k then (dictGet d k).map (fun _ => v) else dictGet d k' := by
  induction d with
  | nil => by_cases hk : k' = k <;> simp [hk, dictGet_nil]
  | cons p d ih =>
      rw [List.map_cons]
      simp only [beq_iff_eq] at ih ⊢
      by_cases hp : p.1 = k
      · have hhead : (if p.1 = k then (k, v) else p) = (k, v) := by simp [hp]
        rw [hhead]
        by_cases hk : k' = k
        · subst hk
          simp [dictGet_cons, hp]
        · have hk2 : ¬ k = k' := fun hc => hk hc.symm
          have hp2 : ¬ p.1 = k' := fun hc => hk (hp.symm.trans hc).symm
          simp [dictGet_cons, hk, hk2, hp2, ih]
      · have hhead : (if p.1 = k then (k, v) else p) = p := by simp [hp]
        rw [hhead]
        by_cases hk : k' = k
        · subst hk
          simp [dictGet_cons, hp, ih]
        · simp [dictGet_cons, hk, ih]

theorem dictGet_dictSet {α : Type} (d : List (String × α)) (k : String) (v : α)
    (k' : String) :
    dictGet (dictSet d k v) k' = if k' = k then some v else dictGet d k' := by
  unfold dictSet
  by_cases hmem : d.any (fun p => p.1 == k) = true
  · rw [if_pos hmem, dictGet_set_map]
    by_cases hk : k' = k
    · obtain ⟨p, hp, hpk⟩ := List.any_eq_true.mp hmem
      have hs : (dictGet d k).isSome := by
        unfold dictGet
        rw [Option.isSome_map']
        exact List.find?_isSome.mpr ⟨p, hp, hpk⟩
      obtain ⟨w, hw⟩ := Option.isSome_iff_exists.mp hs
      simp [hk, hw]
    · simp [hk]
  · rw [if_neg hmem, dictGet_append]
    have hnone : dictGet d k = none := by
      apply dictGet_eq_none_of_not_mem
      intro hc
      obtain ⟨p, hp, hpk⟩ := List.mem_map.mp hc
      exact hmem (List.any_eq_true.mpr ⟨p, hp, by simp [hpk]⟩)
    by_cases hk : k' = k
    · subst hk
      simp [hnone, dictGet_cons]
    · have hk2 : ¬ k = k' := fun hc => hk hc.symm
      cases hg : dictGet d k' with
      | some w => simp [hg, hk]
      | none => simp [hg, dictGet_cons, hk, hk2, dictGet_nil]

theorem dictGet_dictUpdate {α : Type} (page : List (String × α))
    (hnd : (page.map Prod.fst).Nodup) (d : List (String × α)) (k : String) :
    dictGet (dictUpdate d page) k
      = match dictGet page k with
        | some v => some v
        | none => dictGet d k := by
  induction page generalizing d with
  | nil => simp [dictUpdate, dictGet_nil]
  | cons p rest ih =>
      simp only [List.map_cons, List.nodup_cons] at hnd
      have step : dictUpdate d (p :: rest) = dictUpdate (dictSet d p.1 p.2) rest := rfl
      rw [step, ih hnd.2, dictGet_cons, dictGet_dictSet]
      by_cases hk : p.1 = k
      · have hrest : dictGet rest k = none :=
          dictGet_eq_none_of_not_mem rest k (hk ▸ hnd.1)
        rw [hrest, if_pos hk, if_pos hk.symm]
      · rw [if_neg hk, if_neg (fun hc : k = p.1 => hk hc.symm)]

theorem dictGet_dictUpdate_not_mem {α : Type} (page : List (String × α))
    (k : String) (hk : k ∉ page.map Prod.fst) :
    ∀ d : List (String × α), dictGet (dictUpdate d page) k = dictGet d k := by
  induction page with
  | nil => intro d; rfl
  | cons q rest ih =>
      intro d
      simp only [List.map_cons, List.mem_cons] at hk
      push_neg at hk
      have step : dictUpdate d (q :: rest) = dictUpdate (dictSet d q.1 q.2) rest := rfl
      rw [step, ih hk.2, dictGet_dictSet, if_neg hk.1]

theorem dictGet_dictUpdate_const {α : Type} (page : List (String × α))
    (k : String) (v : α) (hk : k ∈ page.map Prod.fst)
    (huni : ∀ q ∈ page, q.1 = k → q.2 = v) :
    ∀ d : List (String × α), dictGet (dictUpdate d page) k = some v := by
  induction page with
  | nil => simp at hk
  | cons q rest ih =>
      intro d
      have step : dictUpdate d (q :: rest) = dictUpdate (dictSet d q.1 q.2) rest := rfl
      rw [step]
      by_cases hrest : k ∈ rest.map Prod.fst
      · exact ih hrest (fun q' hq' => huni q' (by simp [hq'])) _
      · have hq1 : q.1 = k := by
          simp only [List.map_cons, List.mem_cons] at hk
          rcases hk with h1 | h1
          · exact h1.symm
          · exact absurd h1 hrest
        rw [dictGet_dictUpdate_not_mem rest k hrest, dictGet_dictSet,
          if_pos hq1.symm, huni q (by simp) hq1]

theorem findSome?_append_match {α β : Type} (f : α → Option β) (l₁ l₂ : List α) :
    (l₁ ++ l₂).findSome? f
      = match l₁.findSome? f with
        | some v => some v
        | none => l₂.findSome? f := by
  induction l₁ with
  | nil => simp
  | cons a l ih =>
      rw [List.cons_append, List.findSome?_cons, List.findSome?_cons]
      cases f a <;> simp [ih]

theorem foldl_dictUpdate_get {α : Type} (pages : List (List (String × α)))
    (h : ∀ p ∈ pages, (p.map Prod.fst).Nodup) (init : List (String × α)) (k : String) :
    dictGet (pages.foldl dictUpdate init) k
      = match pages.reverse.findSome? (fun p => dictGet p k) with
        | some v => some v
        | none => dictGet init k := by
  induction pages generalizing init with
  | nil => simp
  | cons p rest ih =>
      have hp := h p (by simp)
      have hrest : ∀ q ∈ rest, (q.map Prod.fst).Nodup := fun q hq => h q (by simp [hq])
      rw [List.foldl_cons, ih hrest, List.reverse_cons, findSome?_append_match]
      cases hr : rest.reverse.findSome? (fun q => dictGet q k) with
      | some v => simp
      | none =>
          simp only [List.findSome?_cons, List.findSome?_nil]
          rw [dictGet_dictUpdate p hp]
          cases dictGet p k <;> simp

/-- **C3.** Merging the per-page normalized mappings with `all_data.update(result)`
is the left-to-right right-biased union: a key's merged value is the value from
the last (largest-offset) page containing it, and a key is present in the
aggregate iff it is present in some page. -/
theorem merge_is_right_biased_union (pages : List (List (String × Record)))
    (h : ∀ p ∈ pages, (p.map Prod.fst).Nodup) (k : String) :
    dictGet (pages.foldl dictUpdate []) k
        = pages.reverse.findSome? (fun p => dictGet p k)
      ∧ ((dictGet (pages.foldl dictUpdate []) k).isSome
          ↔ ∃ p ∈ pages, (dictGet p k).isSome) := by
  have hmain := foldl_dictUpdate_get pages h [] k
  have heq : dictGet (pages.foldl dictUpdate []) k
      = pages.reverse.findSome? (fun p => dictGet p k) := by
    rw [hmain]
    cases pages.reverse.findSome? (fun p => dictGet p k) <;> simp [dictGet_nil]
  refine ⟨heq, ?_⟩
  rw [heq]
  constructor
  · intro hs
    obtain ⟨v, hv⟩ := Option.isSome_iff_exists.mp hs
    obtain ⟨p, hp, hpv⟩ := List.exists_of_findSome?_eq_some hv
    exact ⟨p, List.mem_reverse.mp hp, by simp [hpv]⟩
  · rintro ⟨p, hp, hps⟩
    obtain ⟨v, hv⟩ := Option.isSome_iff_exists.mp hps
    rcases hfs : pages.reverse.findSome? (fun q => dictGet q k) with _ | w
    · have := List.findSome?_eq_none_iff.mp hfs p (List.mem_reverse.mpr hp)
      rw [this] at hv
      cases hv
    · simp

/-- Two concrete pages sharing the key `"r1"`, for the C3 witness. -/
def pagesW : List (List (String × Record)) :=
  [[("r1", Record.mk "Q1" [])], [("r1", Record.mk "Q2" []), ("r2", Record.mk "Q3" [])]]

/-- **C3 witness**: two overlapping mock pages. -/
theorem merge_is_right_biased_union_witness :
    (∀ p ∈ pagesW, (p.map Prod.fst).Nodup)
      ∧ (dictGet (pagesW.foldl dictUpdate []) "r1"
            = pagesW.reverse.findSome? (fun p => dictGet p "r1")
          ∧ ((dictGet (pagesW.foldl dictUpdate []) "r1").isSome
              ↔ ∃ p ∈ pagesW, (dictGet p "r1").isSome)) :=
  ⟨by decide, merge_is_right_biased_union pagesW (by decide) "r1"⟩

/-! ## Lemmas: `split("/")[-1]` versus "substring after the last slash" -/

theorem splitSlash_ne_nil (l : List Char) : splitSlash l ≠ [] := by
  cases l with
  | nil => simp [splitSlash]
  | cons c rest =>
      unfold splitSlash
      by_cases hc : c = '/'
      · simp [hc]
      · simp only [hc, if_false]
        cases splitSlash rest <;> simp

theorem splitSlash_no_slash (l : List Char) (h : '/' ∉ l) : splitSlash l = [l] := by
  induction l with
  | nil => rfl
  | cons c rest ih =>
      unfold splitSlash
      have hc : ¬ c = '/' := fun hc => h (hc ▸ List.mem_cons_self c rest)
      have hrest : '/' ∉ rest := fun hr => h (List.mem_cons_of_mem c hr)
      simp [hc, ih hrest]

theorem suffixAfterLastSlash_no_slash (l : List Char) (h : '/' ∉ l) :
    suffixAfterLastSlash l = l := by
  induction l with
  | nil => rfl
  | cons c rest ih =>
      unfold suffixAfterLastSlash
      have hc : ¬ c = '/' := fun hc => h (hc ▸ List.mem_cons_self c rest)
      have hrest : '/' ∉ rest := fun hr => h (List.mem_cons_of_mem c hr)
      simp [hc, hrest, ih hrest]

theorem splitSlash_two_le (l : List Char) (h : '/' ∈ l) :
    2 ≤ (splitSlash l).length := by
  induction l with
  | nil => cases h
  | cons c rest ih =>
      unfold splitSlash
      by_cases hc : c = '/'
      · simp only [hc, if_pos rfl, List.length_cons]
        have := splitSlash_ne_nil rest
        cases hsp : splitSlash rest with
        | nil => exact absurd hsp this
        | cons g gs => simp
      · have hrest : '/' ∈ rest := by
          rcases List.mem_cons.mp h with h1 | h2
          · exact absurd h1.symm hc
          · exact h2
        simp only [hc, if_false]
        cases hsp : splitSlash rest with
        | nil => exact absurd hsp (splitSlash_ne_nil rest)
        | cons g gs =>
            have := ih hrest
            rw [hsp] at this
            simpa using this

theorem getLastD_irrel {α : Type} (l : List α) (h : l ≠ []) (d₁ d₂ : α) :
    l.getLastD d₁ = l.getLastD d₂ := by
  induction l generalizing d₁ d₂ with
  | nil => exact absurd rfl h
  | cons a l ih =>
      rw [List.getLastD_cons, List.getLastD_cons]

theorem splitSlash_getLastD (l : List Char) :
    (splitSlash l).getLastD [] = suffixAfterLastSlash l := by
  induction l with
  | nil => rfl
  | cons c rest ih =>
      unfold splitSlash suffixAfterLastSlash
      by_cases hc : c = '/'
      · rw [if_pos hc, List.getLastD_cons]
        by_cases hrest : '/' ∈ rest
        · rw [ih, if_pos hrest]
        · rw [splitSlash_no_slash rest hrest, List.getLastD_cons, if_neg hrest, if_pos hc]
          rfl
      · rw [if_neg hc]
        by_cases hrest : '/' ∈ rest
        · cases hsp : splitSlash rest with
          | nil => exact absurd hsp (splitSlash_ne_nil rest)
          | cons g gs =>
              have hlen := splitSlash_two_le rest hrest
              rw [hsp] at hlen
              have hgs : gs ≠ [] := by
                intro hgsnil
                rw [hgsnil] at hlen
                simp at hlen
              rw [hsp, List.getLastD_cons] at ih
              simp only [hsp]
              rw [List.getLastD_cons, getLastD_irrel gs hgs (c :: g) g, ih]
              simp [hrest]
        · rw [splitSlash_no_slash rest hrest]
          simp only [List.getLastD_cons]
          simp [hrest, hc, suffixAfterLastSlash_no_slash rest hrest]

/-- The embedding's `s.split("/")[-1]` agrees with the spec's "substring of the
URI value after its last `/`". -/
theorem lastComponent_eq_suffix (s : String) :
    lastComponent s = String.mk (suffixAfterLastSlash s.data) := by
  unfold lastComponent
  rw [splitSlash_getLastD]

/-! ## Lemmas: the normalizer -/

theorem claimValue_mkRecord (b : Binding) (claims : List (String × String))
    (name : String) (hname : name ∈ claims.map Prod.snd) :
    claimValue (mkRecord b claims) name = some (getValue b name) := by
  unfold claimValue mkRecord
  induction claims with
  | nil => simp at hname
  | cons c rest ih =>
      simp only [List.map_cons, List.find?_cons]
      cases hb : c.2 == name with
      | true =>
          have hc : c.2 = name := by simpa using hb
          simp [hc]
      | false =>
          have hc : ¬ c.2 = name := by simpa using hb
          have hname2 : name ∈ rest.map Prod.snd := by
            rw [List.map_cons] at hname
            rcases List.mem_cons.mp hname with h1 | h2
            · exact absurd h1.symm hc
            · exact h2
          simpa using ih hname2

theorem mkRecord_hasClaim (b : Binding) (claims : List (String × String))
    (c : String × String) (hc : c ∈ claims) :
    (claimValue (mkRecord b claims) c.2).isSome := by
  rw [claimValue_mkRecord b claims c.2 (List.mem_map.mpr ⟨c, hc, rfl⟩)]
  rfl

theorem wellFormedB_ror (b : Binding) (h : wellFormedB b = true) :
    ∃ s, rorOf b = some s := by
  unfold wellFormedB at h
  rw [Bool.and_eq_true] at h
  exact Option.isSome_iff_exists.mp h.1

theorem wellFormedB_item (b : Binding) (h : wellFormedB b = true) :
    ∃ s, itemOf b = some s := by
  unfold wellFormedB at h
  rw [Bool.and_eq_true] at h
  exact Option.isSome_iff_exists.mp h.2

theorem find?_append_match {α : Type} (f : α → Bool) (l₁ l₂ : List α) :
    (l₁ ++ l₂).find? f
      = match l₁.find? f with
        | some v => some v
        | none => l₂.find? f := by
  induction l₁ with
  | nil => simp
  | cons a l ih =>
      rw [List.cons_append, List.find?_cons, List.find?_cons]
      cases f a <;> simp [ih]

/-- The loop of the normalizer, characterised: on well-formed bindings it
succeeds, and each key holds the record built from the **last** binding of the
page carrying that `rorID` (later bindings overwrite earlier ones). -/
theorem processLoop_get (claims : List (String × String)) (results : List Binding)
    (h : ∀ r ∈ results, wellFormedB r = true) :
    ∀ acc : List (String × Record),
      ∃ d, processLoop claims acc results = .ok d
        ∧ ∀ k, dictGet d k
            = match results.reverse.find? (fun r => rorOf r == some k) with
              | some r => some (mkRecord r claims)
              | none => dictGet acc k := by
  induction results with
  | nil => intro acc; exact ⟨acc, rfl, fun k => by simp⟩
  | cons r rest ih =>
      intro acc
      have hr := h r (by simp)
      have hrest : ∀ q ∈ rest, wellFormedB q = true := fun q hq => h q (by simp [hq])
      obtain ⟨rid, hrid⟩ := wellFormedB_ror r hr
      obtain ⟨item, hitem⟩ := wellFormedB_item r hr
      obtain ⟨d, hd, hget⟩ := ih hrest (dictSet acc rid (mkRecord r claims))
      refine ⟨d, ?_, ?_⟩
      · unfold processLoop
        rw [hrid, hitem]
        exact hd
      · intro k
        rw [hget k, List.reverse_cons, find?_append_match]
        cases hfs : rest.reverse.find? (fun q => rorOf q == some k) with
        | some q => simp
        | none =>
            simp only [List.find?_cons, List.find?_nil]
            rw [dictGet_dictSet]
            cases hb : rorOf r == some k with
            | true =>
                have : rorOf r = some k := by simpa using hb
                rw [hrid] at this
                have hkr : k = rid := by injection this with h'; exact h'.symm
                simp [hkr]
            | false =>
                have hne : ¬ rorOf r = some k := by simpa using hb
                have hkr : ¬ k = rid := fun hk => hne (hk ▸ hrid)
                simp [hkr]

/-- A page containing any malformed binding makes the whole normalizer raise. -/
theorem processLoop_error (claims : List (String × String)) (results : List Binding)
    (r : Binding) (hr : r ∈ results) (hbad : wellFormedB r = false) :
    ∀ acc, ∃ e, processLoop claims acc results = .error e := by
  induction results with
  | nil => cases hr
  | cons q rest ih =>
      intro acc
      rcases List.mem_cons.mp hr with hq | hq
      · subst hq
        unfold wellFormedB at hbad
        unfold processLoop
        cases hror : rorOf r with
        | none => exact ⟨"KeyError", rfl⟩
        | some rid =>
            cases hitem : itemOf r with
            | none => exact ⟨"KeyError", rfl⟩
            | some it =>
                rw [hror, hitem] at hbad
                simp at hbad
      · cases hq' : wellFormedB q with
        | false =>
            unfold processLoop wellFormedB at *
            cases hror : rorOf q with
            | none => exact ⟨"KeyError", rfl⟩
            | some rid =>
                cases hitem : itemOf q with
                | none => exact ⟨"KeyError", rfl⟩
                | some it =>
                    rw [hror, hitem] at hq'
                    simp at hq'
        | true =>
            obtain ⟨rid, hrid⟩ := wellFormedB_ror q hq'
            obtain ⟨item, hitem⟩ := wellFormedB_item q hq'
            obtain ⟨e, he⟩ := ih hq (dictSet acc rid (mkRecord q claims))
            refine ⟨e, ?_⟩
            unfold processLoop
            rw [hrid, hitem]
            exact he

/-- **C7 (amended: no claim named "wikidata_id").** On a page of well-formed
bindings, for a claim spec none of whose claim names is the reserved key
`"wikidata_id"`, the normalizer succeeds and returns a mapping keyed by the
`rorID` value; each stored record's secondary identifier is the substring of
the `item` URI after its last `/`, each claim name holds the binding's value
for that variable when bound and null otherwise, and the abstract record
agrees entry-for-entry with the dict `{"wikidata_id": ..., **claims}` built
exactly as the source builds it; every binding's `rorID` is a key of the
output. (For a claim named `"wikidata_id"` the `**` expansion overwrites the
secondary identifier — see the counterexample.) -/
theorem process_normalizes (results : List Binding) (claims : List (String × String))
    (h : ∀ r ∈ results, wellFormedB r = true)
    (hwd : ∀ c ∈ claims, c.2 ≠ "wikidata_id") :
    ∃ d, process_wikidata_results results claims = .ok d
      ∧ (∀ k rec, dictGet d k = some rec →
          ∃ r ∈ results, rorOf r = some k
            ∧ (∃ item, itemOf r = some item
                ∧ rec.wikidata_id = String.mk (suffixAfterLastSlash item.data))
            ∧ (∀ c ∈ claims, claimValue rec c.2 = some (getValue r c.2))
            ∧ dictGet (mkRecordDict r claims) "wikidata_id"
                = some (some rec.wikidata_id)
            ∧ (∀ c ∈ claims, dictGet (mkRecordDict r claims) c.2
                = some (getValue r c.2)))
      ∧ (∀ r ∈ results, ∀ k, rorOf r = some k → (dictGet d k).isSome) := by
  obtain ⟨d, hd, hget⟩ := processLoop_get claims results h []
  refine ⟨d, hd, ?_, ?_⟩
  · intro k rec hrec
    rw [hget k] at hrec
    cases hfs : results.reverse.find? (fun r => rorOf r == some k) with
    | none => rw [hfs] at hrec; simp [dictGet_nil] at hrec
    | some r =>
        rw [hfs] at hrec
        have hmem : r ∈ results := List.mem_reverse.mp (List.mem_of_find?_eq_some hfs)
        have hpred : rorOf r = some k := by
          have := List.find?_some hfs
          simpa using this
        obtain ⟨item, hitem⟩ := wellFormedB_item r (h r hmem)
        have hrec' : rec = mkRecord r claims := (Option.some_inj.mp hrec).symm
        have hkeys : "wikidata_id"
            ∉ (claims.map fun c => (c.2, getValue r c.2)).map Prod.fst := by
          intro hmemk
          obtain ⟨p, hp, hpeq⟩ := List.mem_map.mp hmemk
          obtain ⟨c, hc, hceq⟩ := List.mem_map.mp hp
          apply hwd c hc
          rw [← hceq] at hpeq
          exact hpeq
        have hwid : dictGet (mkRecordDict r claims) "wikidata_id"
            = some (some (lastComponent ((itemOf r).getD ""))) := by
          unfold mkRecordDict
          rw [dictGet_dictUpdate_not_mem _ _ hkeys, dictGet_cons, if_pos rfl]
        refine ⟨r, hmem, hpred, ⟨item, hitem, ?_⟩, ?_, ?_, ?_⟩
        · rw [hrec']
          unfold mkRecord
          rw [hitem]
          exact lastComponent_eq_suffix item
        · intro c hc
          rw [hrec', claimValue_mkRecord r claims c.2 (List.mem_map.mpr ⟨c, hc, rfl⟩)]
        · rw [hrec']
          exact hwid
        · intro c hc
          have hkc : c.2 ∈ (claims.map fun c' => (c'.2, getValue r c'.2)).map Prod.fst :=
            List.mem_map.mpr ⟨(c.2, getValue r c.2),
              List.mem_map.mpr ⟨c, hc, rfl⟩, rfl⟩
          have huni : ∀ q ∈ claims.map fun c' => (c'.2, getValue r c'.2),
              q.1 = c.2 → q.2 = getValue r c.2 := by
            intro q hq hq1
            obtain ⟨c', hc', hceq⟩ := List.mem_map.mp hq
            rw [← hceq] at hq1 ⊢
            have hq2 : c'.2 = c.2 := hq1
            show getValue r c'.2 = getValue r c.2
            rw [hq2]
          exact dictGet_dictUpdate_const _ c.2 (getValue r c.2) hkc huni _
  · intro r hmem k hk
    rw [hget k]
    cases hfs : results.reverse.find? (fun q => rorOf q == some k) with
    | some q => simp
    | none =>
        have := List.find?_eq_none.mp hfs r (List.mem_reverse.mpr hmem)
        simp [hk] at this

/-- **C7 counterexample.** With the claim spec `{"P000": "wikidata_id"}` and a
well-formed binding whose `wikidata_id` variable is bound to `"boom"`, the
record dict built exactly as line 83–87 builds it holds `"boom"` under
`"wikidata_id"` — not `"Q1"`, the substring of the `item` URI after its last
`/` — refuting the claim's universal assertion over every claim spec. -/
theorem process_normalizes_counterexample :
    wellFormedB [("rorID", some "r1"), ("item", some "http://w/Q1"),
        ("wikidata_id", some "boom")] = true
      ∧ lastComponent "http://w/Q1" = "Q1"
      ∧ dictGet (mkRecordDict
            [("rorID", some "r1"), ("item", some "http://w/Q1"),
             ("wikidata_id", some "boom")]
            [("P000", "wikidata_id")]) "wikidata_id" = some (some "boom")
      ∧ ¬ dictGet (mkRecordDict
            [("rorID", some "r1"), ("item", some "http://w/Q1"),
             ("wikidata_id", some "boom")]
            [("P000", "wikidata_id")]) "wikidata_id" = some (some "Q1") :=
  ⟨by decide, by decide, by decide, by decide⟩

/-- **C7 witness**: one well-formed binding carrying an `isni` value, claim
spec `{"P213": "isni"}` (no claim named `"wikidata_id"`). -/
theorem process_normalizes_witness :
    (∀ r ∈ ([[("rorID", some "r1"),
              ("item", some "http://www.wikidata.org/entity/Q42"),
              ("isni", some "0000 0001")]] : List Binding),
        wellFormedB r = true)
      ∧ (∀ c ∈ [("P213", "isni")], c.2 ≠ "wikidata_id")
      ∧ ∃ d, process_wikidata_results
            [[("rorID", some "r1"),
              ("item", some "http://www.wikidata.org/entity/Q42"),
              ("isni", some "0000 0001")]] [("P213", "isni")] = .ok d
          ∧ (∀ k rec, dictGet d k = some rec →
              ∃ r ∈ ([[("rorID", some "r1"),
                       ("item", some "http://www.wikidata.org/entity/Q42"),
                       ("isni", some "0000 0001")]] : List Binding),
                rorOf r = some k
                  ∧ (∃ item, itemOf r = some item
                      ∧ rec.wikidata_id = String.mk (suffixAfterLastSlash item.data))
                  ∧ (∀ c ∈ [("P213", "isni")],
                      claimValue rec c.2 = some (getValue r c.2))
                  ∧ dictGet (mkRecordDict r [("P213", "isni")]) "wikidata_id"
                      = some (some rec.wikidata_id)
                  ∧ (∀ c ∈ [("P213", "isni")],
                      dictGet (mkRecordDict r [("P213", "isni")]) c.2
                        = some (getValue r c.2)))
          ∧ (∀ r ∈ ([[("rorID", some "r1"),
                      ("item", some "http://www.wikidata.org/entity/Q42"),
                      ("isni", some "0000 0001")]] : List Binding),
              ∀ k, rorOf r = some k → (dictGet d k).isSome) :=
  ⟨by decide, by decide, process_normalizes _ [("P213", "isni")] (by decide) (by decide)⟩

/-- **C9.** Within a single page, when two or more bindings share the same
`rorID`, the normalized output holds the record built from the **last** such
binding in page order. -/
theorem process_last_binding_wins (results : List Binding)
    (claims : List (String × String)) (h : ∀ r ∈ results, wellFormedB r = true) :
    ∃ d, process_wikidata_results results claims = .ok d
      ∧ ∀ k, dictGet d k
          = match results.reverse.find? (fun r => rorOf r == some k) with
            | some r => some (mkRecord r claims)
            | none => none := by
  obtain ⟨d, hd, hget⟩ := processLoop_get claims results h []
  refine ⟨d, hd, fun k => ?_⟩
  rw [hget k]
  cases results.reverse.find? (fun r => rorOf r == some k) with
  | some r => rfl
  | none => simp [dictGet_nil]

/-- **C9 witness**: a page with two bindings for `"r1"`; the output holds the
second binding's record. -/
theorem process_last_binding_wins_witness :
    (∀ r ∈ ([[("rorID", some "r1"), ("item", some "e/Q1")],
             [("rorID", some "r1"), ("item", some "e/Q2")]] : List Binding),
        wellFormedB r = true)
      ∧ ∃ d, process_wikidata_results
            [[("rorID", some "r1"), ("item", some "e/Q1")],
             [("rorID", some "r1"), ("item", some "e/Q2")]] [] = .ok d
          ∧ ∀ k, dictGet d k
              = match ([[("rorID", some "r1"), ("item", some "e/Q1")],
                        [("rorID", some "r1"),
                         ("item", some "e/Q2")]] : List Binding).reverse.find?
                    (fun r => rorOf r == some k) with
                | some r => some (mkRecord r [])
                | none => none :=
  ⟨by decide, process_last_binding_wins _ [] (by decide)⟩

/-- **C10.** The normalizer raises on any binding lacking a usable `rorID` or
`item`, and the worker's catch-all then turns the whole page into the empty
mapping, discarding the page's well-formed bindings too. -/
theorem process_partial_on_malformed (results : List Binding)
    (claims : List (String × String)) (r : Binding) (hr : r ∈ results)
    (hbad : wellFormedB r = false) :
    (∃ e, process_wikidata_results results claims = .error e)
      ∧ worker claims (Except.ok results) = [] := by
  obtain ⟨e, he⟩ := processLoop_error claims results r hr hbad []
  have hp : process_wikidata_results results claims = .error e := he
  refine ⟨⟨e, hp⟩, ?_⟩
  have hw : worker claims (Except.ok results)
      = match process_wikidata_results results claims with
        | .ok d => d
        | .error _ => [] := rfl
  rw [hw, hp]

/-- **C10 witness**: a page holding one well-formed binding and one binding
with no `rorID`; the whole page is dropped. -/
theorem process_partial_on_malformed_witness :
    ([("item", some "e/Q9")] : Binding) ∈
        ([[("rorID", some "r1"), ("item", some "e/Q1")],
          [("item", some "e/Q9")]] : List Binding)
      ∧ wellFormedB [("item", some "e/Q9")] = false
      ∧ ((∃ e, process_wikidata_results
              [[("rorID", some "r1"), ("item", some "e/Q1")],
               [("item", some "e/Q9")]] [("P213", "isni")] = .error e)
          ∧ worker [("P213", "isni")]
              (Except.ok [[("rorID", some "r1"), ("item", some "e/Q1")],
                          [("item", some "e/Q9")]]) = []) :=
  ⟨by decide, by decide,
    process_partial_on_malformed
      [[("rorID", some "r1"), ("item", some "e/Q1")], [("item", some "e/Q9")]]
      [("P213", "isni")] [("item", some "e/Q9")] (by decide) (by decide)⟩

/-! ## Lemmas: the CSV emitter -/

/-- The declarative row function of lines 98–101: the row a record yields in a
claim's CSV, if any (only a present, non-empty value yields one). -/
def rowOf (claim_name : String) (kv : String × Record) : Option (List String) :=
  match claimValue kv.2 claim_name with
  | some (some s) => if s = "" then none else some [kv.1, kv.2.wikidata_id, s]
  | _ => none

theorem csvRowLoop_eq (claim_name : String) :
    ∀ (data : List (String × Record)) (rows file : List (List String)),
      csvRowLoop claim_name rows data = .ok file →
      file = rows ++ data.filterMap (rowOf claim_name) := by
  intro data
  induction data with
  | nil =>
      intro rows file h
      unfold csvRowLoop at h
      simp at h
      simp [h]
  | cons kv rest ih =>
      intro rows file h
      unfold csvRowLoop at h
      rw [List.filterMap_cons]
      cases hv : claimValue kv.2 claim_name with
      | none =>
          simp only [hv] at h
          cases h
      | some v =>
          cases v with
          | none =>
              simp only [hv] at h
              simp only [rowOf, hv]
              exact ih rows file h
          | some s =>
              simp only [hv] at h
              by_cases hs : s = ""
              · rw [if_pos hs] at h
                simp only [rowOf, hv, if_pos hs]
                exact ih rows file h
              · rw [if_neg hs] at h
                simp only [rowOf, hv, if_neg hs]
                rw [ih _ file h, List.append_assoc]
                rfl

theorem csvRowLoop_ok (claim_name : String) :
    ∀ (data : List (String × Record)) (rows : List (List String)),
      (∀ kv ∈ data, (claimValue kv.2 claim_name).isSome) →
      csvRowLoop claim_name rows data
        = .ok (rows ++ data.filterMap (rowOf claim_name)) := by
  intro data
  induction data with
  | nil => intro rows _; simp [csvRowLoop]
  | cons kv rest ih =>
      intro rows h
      have hkv := h kv (by simp)
      have hrest : ∀ q ∈ rest, (claimValue q.2 claim_name).isSome :=
        fun q hq => h q (by simp [hq])
      obtain ⟨v, hv⟩ := Option.isSome_iff_exists.mp hkv
      unfold csvRowLoop
      rw [List.filterMap_cons]
      cases v with
      | none =>
          simp only [hv]
          simp only [rowOf, hv]
          exact ih rows hrest
      | some s =>
          simp only [hv]
          by_cases hs : s = ""
          · rw [if_pos hs]
            simp only [rowOf, hv, if_pos hs]
            exact ih rows hrest
          · rw [if_neg hs]
            simp only [rowOf, hv, if_neg hs]
            rw [ih _ hrest, List.append_assoc]
            rfl

/-- A `rowOf` row's first column is the record's key. -/
theorem rowOf_head (claim_name : String) (kv : String × Record) (row : List String)
    (hv : rowOf claim_name kv = some row) : row.head? = some kv.1 := by
  unfold rowOf at hv
  cases hcv : claimValue kv.2 claim_name with
  | none =>
      simp only [hcv] at hv
      cases hv
  | some v =>
      cases v with
      | none =>
          simp only [hcv] at hv
          cases hv
      | some s =>
          simp only [hcv] at hv
          by_cases hs : s = ""
          · rw [if_pos hs] at hv
            cases hv
          · rw [if_neg hs] at hv
            injection hv with hv2
            rw [← hv2]
            rfl

/-- Every row produced from records outside key `rid` has a different first
column, so filtering the rows on first column `rid` drops them all. -/
theorem filterMap_rowOf_other (claim_name rid : String) :
    ∀ (data : List (String × Record)), rid ∉ data.map Prod.fst →
      (data.filterMap (rowOf claim_name)).filter
          (fun row => row.head? == some rid) = [] := by
  intro data
  induction data with
  | nil => intro _; rfl
  | cons kv rest ih =>
      intro h
      simp only [List.map_cons, List.mem_cons] at h
      push_neg at h
      rw [List.filterMap_cons]
      cases hv : rowOf claim_name kv with
      | none => exact ih h.2
      | some row =>
          rw [List.filter_cons]
          have hne : (row.head? == some rid) = false := by
            rw [rowOf_head claim_name kv row hv]
            simp only [beq_eq_false_iff_ne, ne_eq, Option.some.injEq]
            exact fun hc => h.1 hc.symm
          rw [hne]
          simp only [Bool.false_eq_true, if_false]
          exact ih h.2

/-- Filtering a claim file's data rows on one key, characterised: under
distinct keys, the key's record yields its row exactly when its stored claim
value is present and non-empty. -/
theorem filterMap_rowOf_filter (claim_name rid : String) (rec : Record) :
    ∀ data : List (String × Record), (data.map Prod.fst).Nodup →
      (rid, rec) ∈ data →
      (data.filterMap (rowOf claim_name)).filter (fun row => row.head? == some rid)
        = match claimValue rec claim_name with
          | some (some s) => if s = "" then [] else [[rid, rec.wikidata_id, s]]
          | _ => [] := by
  intro data
  induction data with
  | nil => intro _ hmem; cases hmem
  | cons kv rest ih =>
      intro hnd hmem
      simp only [List.map_cons, List.nodup_cons] at hnd
      rw [List.filterMap_cons]
      rcases List.mem_cons.mp hmem with hkv | hkv
      · subst hkv
        cases hv : rowOf claim_name (rid, rec) with
        | none =>
            simp only [hv]
            rw [filterMap_rowOf_other claim_name rid rest hnd.1]
            unfold rowOf at hv
            cases hcv : claimValue rec claim_name with
            | none => simp [hcv]
            | some v =>
                cases v with
                | none => simp [hcv]
                | some s =>
                    simp only [hcv] at hv
                    by_cases hs : s = ""
                    · simp [hcv, hs]
                    · rw [if_neg hs] at hv
                      cases hv
        | some row =>
            simp only [hv]
            unfold rowOf at hv
            cases hcv : claimValue rec claim_name with
            | none =>
                simp only [hcv] at hv
                cases hv
            | some v =>
                cases v with
                | none =>
                    simp only [hcv] at hv
                    cases hv
                | some s =>
                    simp only [hcv] at hv
                    by_cases hs : s = ""
                    · rw [if_pos hs] at hv
                      cases hv
                    · rw [if_neg hs] at hv
                      injection hv with hv2
                      subst hv2
                      simp [List.filter_cons,
                        filterMap_rowOf_other claim_name rid rest hnd.1, hcv, hs]
      · have hne : kv.1 ≠ rid := by
          intro hc
          exact hnd.1 (hc ▸ List.mem_map.mpr ⟨(rid, rec), hkv, rfl⟩)
        cases hv : rowOf claim_name kv with
        | none =>
            simp only [hv]
            exact ih hnd.2 hkv
        | some row =>
            simp only [hv]
            rw [List.filter_cons]
            have hne2 : (row.head? == some rid) = false := by
              rw [rowOf_head claim_name kv row hv]
              simp only [beq_eq_false_iff_ne, ne_eq, Option.some.injEq]
              exact hne
            rw [hne2]
            simp only [Bool.false_eq_true, if_false]
            exact ih hnd.2 hkv

/-- **C4.** In a claim's emitted CSV, a registry identifier's record yields a
row exactly when the record's stored value for that claim is present and
non-empty; the row then carries that value, and a record with a null value
yields no row. -/
theorem csv_row_iff_nonempty (data : List (String × Record)) (claim_name : String)
    (file : List (List String)) (rid : String) (rec : Record)
    (hnd : (data.map Prod.fst).Nodup) (hmem : (rid, rec) ∈ data)
    (hfile : generate_csv_file data claim_name = .ok file) :
    file.tail.filter (fun row => row.head? == some rid)
      = match claimValue rec claim_name with
        | some (some s) => if s = "" then [] else [[rid, rec.wikidata_id, s]]
        | _ => [] := by
  have hfile2 := csvRowLoop_eq claim_name data _ file hfile
  rw [hfile2, List.singleton_append, List.tail_cons]
  exact filterMap_rowOf_filter claim_name rid rec data hnd hmem

/-- **C4 witness**: a two-record aggregate where `"r1"` carries a value for
`isni` and `"r2"` a null; `"r2"` yields no row. -/
theorem csv_row_iff_nonempty_witness :
    (([("r1", Record.mk "Q1" [("isni", some "0000")]),
       ("r2", Record.mk "Q2" [("isni", none)])].map Prod.fst).Nodup)
      ∧ ("r2", Record.mk "Q2" [("isni", none)]) ∈
          [("r1", Record.mk "Q1" [("isni", some "0000")]),
           ("r2", Record.mk "Q2" [("isni", none)])]
      ∧ generate_csv_file
          [("r1", Record.mk "Q1" [("isni", some "0000")]),
           ("r2", Record.mk "Q2" [("isni", none)])] "isni"
          = .ok [["ROR ID", "Wikidata ID", "isni"], ["r1", "Q1", "0000"]]
      ∧ ([["ROR ID", "Wikidata ID", "isni"],
          ["r1", "Q1", "0000"]] : List (List String)).tail.filter
            (fun row => row.head? == some "r2")
          = match claimValue (Record.mk "Q2" [("isni", none)]) "isni" with
            | some (some s) => if s = "" then []
                else [["r2", (Record.mk "Q2" [("isni", none)]).wikidata_id, s]]
            | _ => [] :=
  ⟨by decide, by decide, rfl,
    csv_row_iff_nonempty
      [("r1", Record.mk "Q1" [("isni", some "0000")]),
       ("r2", Record.mk "Q2" [("isni", none)])] "isni"
      [["ROR ID", "Wikidata ID", "isni"], ["r1", "Q1", "0000"]]
      "r2" (Record.mk "Q2" [("isni", none)]) (by decide) (by decide) rfl⟩

/-- **C6.** A claim's emitted CSV starts with exactly the header
`["ROR ID", "Wikidata ID", claim_name]`, and its data rows are the aggregate's
records in iteration order, restricted to those passing the non-empty filter. -/
theorem csv_header_and_order (data : List (String × Record)) (claim_name : String)
    (file : List (List String))
    (hfile : generate_csv_file data claim_name = .ok file) :
    file.head? = some ["ROR ID", "Wikidata ID", claim_name]
      ∧ file.tail = data.filterMap (rowOf claim_name) := by
  have h := csvRowLoop_eq claim_name data _ file hfile
  rw [h, List.singleton_append]
  exact ⟨rfl, rfl⟩

/-- **C6 witness**: the same two-record aggregate; the file is the header then
the single surviving row, in order. -/
theorem csv_header_and_order_witness :
    generate_csv_file
        [("r1", Record.mk "Q1" [("isni", some "0000")]),
         ("r2", Record.mk "Q2" [("isni", none)])] "isni"
        = .ok [["ROR ID", "Wikidata ID", "isni"], ["r1", "Q1", "0000"]]
      ∧ (([["ROR ID", "Wikidata ID", "isni"],
           ["r1", "Q1", "0000"]] : List (List String)).head?
            = some ["ROR ID", "Wikidata ID", "isni"]
          ∧ ([["ROR ID", "Wikidata ID", "isni"],
              ["r1", "Q1", "0000"]] : List (List String)).tail
              = [("r1", Record.mk "Q1" [("isni", some "0000")]),
                 ("r2", Record.mk "Q2" [("isni", none)])].filterMap (rowOf "isni")) :=
  ⟨rfl,
    csv_header_and_order
      [("r1", Record.mk "Q1" [("isni", some "0000")]),
       ("r2", Record.mk "Q2" [("isni", none)])] "isni"
      [["ROR ID", "Wikidata ID", "isni"], ["r1", "Q1", "0000"]] rfl⟩

/-! ## Lemmas: the driver -/

theorem mem_dictSet {α : Type} (d : List (String × α)) (k : String) (v : α)
    (kv : String × α) (h : kv ∈ dictSet d k v) : kv ∈ d ∨ kv = (k, v) := by
  unfold dictSet at h
  by_cases hmem : d.any (fun p => p.1 == k) = true
  · rw [if_pos hmem] at h
    obtain ⟨p, hp, hfp⟩ := List.mem_map.mp h
    by_cases hpk : p.1 = k
    · right
      rw [← hfp]
      simp [hpk]
    · left
      rw [← hfp]
      simpa [hpk] using hp
  · rw [if_neg hmem] at h
    rcases List.mem_append.mp h with h1 | h1
    · exact Or.inl h1
    · exact Or.inr (List.mem_singleton.mp h1)

theorem mem_dictUpdate {α : Type} (page : List (String × α)) :
    ∀ (d : List (String × α)) (kv : String × α),
      kv ∈ dictUpdate d page → kv ∈ d ∨ kv ∈ page := by
  induction page with
  | nil => intro d kv h; exact Or.inl h
  | cons q rest ih =>
      intro d kv h
      have step : dictUpdate d (q :: rest) = dictUpdate (dictSet d q.1 q.2) rest := rfl
      rw [step] at h
      rcases ih (dictSet d q.1 q.2) kv h with h1 | h1
      · rcases mem_dictSet d q.1 q.2 kv h1 with h2 | h2
        · exact Or.inl h2
        · exact Or.inr (by simp [h2])
      · exact Or.inr (by simp [h1])

theorem mem_foldl_dictUpdate {α : Type} (pages : List (List (String × α))) :
    ∀ (init : List (String × α)) (kv : String × α),
      kv ∈ pages.foldl dictUpdate init → kv ∈ init ∨ ∃ p ∈ pages, kv ∈ p := by
  induction pages with
  | nil => intro init kv h; exact Or.inl h
  | cons p rest ih =>
      intro init kv h
      rw [List.foldl_cons] at h
      rcases ih (dictUpdate init p) kv h with h1 | h1
      · rcases mem_dictUpdate p init kv h1 with h2 | h2
        · exact Or.inl h2
        · exact Or.inr ⟨p, by simp, h2⟩
      · obtain ⟨q, hq, hkv⟩ := h1
        exact Or.inr ⟨q, by simp [hq], hkv⟩

theorem mem_processLoop (claims : List (String × String)) :
    ∀ (results : List Binding) (acc d : List (String × Record)),
      processLoop claims acc results = .ok d →
      ∀ kv ∈ d, kv ∈ acc ∨ ∃ r, kv.2 = mkRecord r claims := by
  intro results
  induction results with
  | nil =>
      intro acc d h kv hkv
      unfold processLoop at h
      injection h with h2
      exact Or.inl (h2 ▸ hkv)
  | cons r rest ih =>
      intro acc d h kv hkv
      unfold processLoop at h
      cases hror : rorOf r with
      | none => rw [hror] at h; cases h
      | some rid =>
          cases hitem : itemOf r with
          | none => rw [hror, hitem] at h; cases h
          | some it =>
              rw [hror, hitem] at h
              rcases ih (dictSet acc rid (mkRecord r claims)) d h kv hkv with h1 | h1
              · rcases mem_dictSet acc rid (mkRecord r claims) kv h1 with h2 | h2
                · exact Or.inl h2
                · exact Or.inr ⟨r, by rw [h2]⟩
              · exact Or.inr h1

theorem mem_worker (claims : List (String × String))
    (resp : Except String (List Binding)) (kv : String × Record)
    (h : kv ∈ worker claims resp) : ∃ r, kv.2 = mkRecord r claims := by
  unfold worker at h
  cases resp with
  | error e => cases h
  | ok results =>
      have h2 : kv ∈ (match process_wikidata_results results claims with
          | .ok d => d
          | .error _ => ([] : List (String × Record))) := h
      cases hp : process_wikidata_results results claims with
      | error e => rw [hp] at h2; cases h2
      | ok d =>
          rw [hp] at h2
          rcases mem_processLoop claims results [] d hp kv h2 with h1 | h1
          · cases h1
          · exact h1

theorem csvFileLoop_ok (data : List (String × Record)) :
    ∀ (claims : List (String × String)) (files0 : List (String × List (List String))),
      (∀ c ∈ claims, ∀ kv ∈ data, (claimValue kv.2 c.2).isSome) →
      ∃ files, csvFileLoop data files0 claims = .ok files
        ∧ files.map Prod.fst
            = files0.map Prod.fst ++ claims.map (fun c => c.2 ++ "_mapping.csv") := by
  intro claims
  induction claims with
  | nil => intro files0 _; exact ⟨files0, rfl, by simp⟩
  | cons c rest ih =>
      intro files0 h
      have hc := h c (by simp)
      have hrest : ∀ c' ∈ rest, ∀ kv ∈ data, (claimValue kv.2 c'.2).isSome :=
        fun c' hc' => h c' (by simp [hc'])
      have hfile : generate_csv_file data c.2
          = .ok ([["ROR ID", "Wikidata ID", c.2]] ++ data.filterMap (rowOf c.2)) :=
        csvRowLoop_ok c.2 data _ hc
      obtain ⟨files, hloop, hnames⟩ := ih (files0 ++ [(c.2 ++ "_mapping.csv",
        [["ROR ID", "Wikidata ID", c.2]] ++ data.filterMap (rowOf c.2))]) hrest
      refine ⟨files, ?_, ?_⟩
      · unfold csvFileLoop
        rw [hfile]
        exact hloop
      · rw [hnames]
        simp

/-- The pipeline after a successful parse: the CSV generation step always
succeeds on the merged worker output, one file per claim, and `main` returns
normally. -/
theorem run_main_ok (env : Env) (limit offset : Int)
    (claims : List (String × String)) (offs : List Int)
    (hok : env.claims_file = .ok claims)
    (hoffs : main_offsets offset limit = some offs) :
    ∃ files,
      generate_csv_files
          ((offs.map fun o => worker claims (env.page_response o)).foldl dictUpdate [])
          claims = .ok files
        ∧ files.map Prod.fst = claims.map (fun c => c.2 ++ "_mapping.csv")
        ∧ run_main env limit offset
            = { requests := offs, files := files, exit_code := 0 } := by
  have hall : ∀ c ∈ claims,
      ∀ kv ∈ (offs.map fun o => worker claims (env.page_response o)).foldl dictUpdate [],
        (claimValue kv.2 c.2).isSome := by
    intro c hc kv hkv
    rcases mem_foldl_dictUpdate _ [] kv hkv with h1 | h1
    · cases h1
    · obtain ⟨page, hpage, hkvp⟩ := h1
      obtain ⟨o, _, hpo⟩ := List.mem_map.mp hpage
      obtain ⟨r, hr⟩ := mem_worker claims (env.page_response o) kv (hpo ▸ hkvp)
      rw [hr]
      exact mkRecord_hasClaim r claims c hc
  obtain ⟨files, hloop, hnames⟩ := csvFileLoop_ok _ claims [] hall
  have hgen : generate_csv_files
      ((offs.map fun o => worker claims (env.page_response o)).foldl dictUpdate [])
      claims = .ok files := hloop
  refine ⟨files, hgen, by simpa using hnames, ?_⟩
  simp only [run_main, hok, parse_json_claims, hoffs, hgen]

/-- **C5.** Any worker whose fetch or transform raises returns the empty
mapping, the empty page is a neutral element of the merge, no exception
reaches the driver, and the run still completes with exit code 0 writing
exactly one CSV file per claim. -/
theorem worker_errors_absorbed (env : Env) (limit offset : Int)
    (claims : List (String × String)) (hok : env.claims_file = .ok claims)
    (hl : limit ≠ 0) :
    (∀ e : String, worker claims (.error e) = [])
      ∧ (∀ d : List (String × Record), dictUpdate d [] = d)
      ∧ (run_main env limit offset).exit_code = 0
      ∧ (run_main env limit offset).files.map Prod.fst
          = claims.map (fun c => c.2 ++ "_mapping.csv") := by
  obtain ⟨files, _, hnames, hrun⟩ :=
    run_main_ok env limit offset claims _ hok (main_offsets_eq offset limit hl)
  exact ⟨fun e => rfl, fun d => rfl, by rw [hrun], by rw [hrun]; exact hnames⟩

/-- **C5 witness**: every page request fails, yet the run completes and emits
the single claim file. -/
theorem worker_errors_absorbed_witness :
    (Env.mk (.ok [("P213", "isni")]) fun _ => .error "network down").claims_file
        = .ok [("P213", "isni")]
      ∧ (2 : Int) ≠ 0
      ∧ ((∀ e : String, worker [("P213", "isni")] (.error e) = [])
          ∧ (∀ d : List (String × Record), dictUpdate d [] = d)
          ∧ (run_main
              (Env.mk (.ok [("P213", "isni")]) fun _ => .error "network down")
              2 0).exit_code = 0
          ∧ (run_main
              (Env.mk (.ok [("P213", "isni")]) fun _ => .error "network down")
              2 0).files.map Prod.fst
              = [("P213", "isni")].map (fun c => c.2 ++ "_mapping.csv")) :=
  ⟨rfl, by decide,
    worker_errors_absorbed
      (Env.mk (.ok [("P213", "isni")]) fun _ => .error "network down")
      2 0 [("P213", "isni")] rfl (by decide)⟩

/-- **C8.** When reading/parsing the claims file fails, the loader re-raises
the error unchanged, and the run performs no page request, writes no file,
and still exits with code 0 (the top-level handler swallows the error). -/
theorem parse_failure_stops_run (env : Env) (limit offset : Int) (e : String)
    (h : env.claims_file = .error e) :
    parse_json_claims env.claims_file = .error e
      ∧ run_main env limit offset = { requests := [], files := [], exit_code := 0 } := by
  constructor
  · rw [h]; rfl
  · simp only [run_main, h, parse_json_claims]

/-- **C8 witness**: a malformed claims file; nothing is fetched or written. -/
theorem parse_failure_stops_run_witness :
    (Env.mk (.error "Expecting value") fun _ => .ok []).claims_file
        = .error "Expecting value"
      ∧ (parse_json_claims
            (Env.mk (.error "Expecting value") fun _ => .ok []).claims_file
          = .error "Expecting value"
        ∧ run_main (Env.mk (.error "Expecting value") fun _ => .ok []) 10000 0
            = { requests := [], files := [], exit_code := 0 }) :=
  ⟨rfl,
    parse_failure_stops_run
      (Env.mk (.error "Expecting value") fun _ => .ok []) 10000 0
      "Expecting value" rfl⟩

end RorWikidata
